import Mathlib

/-!
# Verification of the ESPN fantasy-basketball watchlist resolver

This file gives a shallow embedding, in Lean 4, of the watchlist resolution
logic of `espn_api/basketball/league.py` (`team_watchlist` and its inner
helper `_collect_watchlist_entries`), together with theorems settling the
frozen claims about that logic.

JSON payloads (the values produced by `json.loads` on ESPN responses) are
modelled by the inductive type `Json`; Python dictionaries become association
lists in insertion order, which is exactly the order `dict.items()` iterates.
Python's `isinstance(x, int)` counts booleans as integers, and `x or y` falls
through on every falsy value, so the embedding models both behaviours
explicitly (`Json.asInt`, `pyOr`).
-/

namespace EspnWatchlist

/-- A JSON value as produced by `json.loads`: `None`, `bool`, `int`, `str`,
`list`, or `dict` (an insertion-ordered association list with string keys). -/
inductive Json where
  | null : Json
  | bool : Bool → Json
  | int : Int → Json
  | str : String → Json
  | arr : List Json → Json
  | obj : List (String × Json) → Json
  deriving Repr

/-! Decidable equality for `Json` (the automatic derivation does not handle
the nested `List` occurrences, so it is spelled out). -/

mutual

/-- Boolean equality on JSON values. -/
def Json.beq : Json → Json → Bool
  | .null, .null => true
  | .bool a, .bool b => a == b
  | .int a, .int b => a == b
  | .str a, .str b => a == b
  | .arr as, .arr bs => Json.beqList as bs
  | .obj as, .obj bs => Json.beqFields as bs
  | _, _ => false

/-- Boolean equality on lists of JSON values. -/
def Json.beqList : List Json → List Json → Bool
  | [], [] => true
  | a :: as, b :: bs => Json.beq a b && Json.beqList as bs
  | _, _ => false

/-- Boolean equality on association lists of JSON values. -/
def Json.beqFields : List (String × Json) → List (String × Json) → Bool
  | [], [] => true
  | (j, a) :: as, (k, b) :: bs => j == k && Json.beq a b && Json.beqFields as bs
  | _, _ => false

end

mutual

theorem Json.eq_of_beq : ∀ {a b : Json}, Json.beq a b = true → a = b
  | .null, .null, _ => rfl
  | .bool _, .bool _, h => by simpa [Json.beq] using h
  | .int _, .int _, h => by simpa [Json.beq] using h
  | .str _, .str _, h => by simpa [Json.beq] using h
  | .arr _, .arr _, h =>
    congrArg Json.arr (Json.eqList_of_beq (by simpa [Json.beq] using h))
  | .obj _, .obj _, h =>
    congrArg Json.obj (Json.eqFields_of_beq (by simpa [Json.beq] using h))
  | .null, .bool _, h => by simp [Json.beq] at h
  | .null, .int _, h => by simp [Json.beq] at h
  | .null, .str _, h => by simp [Json.beq] at h
  | .null, .arr _, h => by simp [Json.beq] at h
  | .null, .obj _, h => by simp [Json.beq] at h
  | .bool _, .null, h => by simp [Json.beq] at h
  | .bool _, .int _, h => by simp [Json.beq] at h
  | .bool _, .str _, h => by simp [Json.beq] at h
  | .bool _, .arr _, h => by simp [Json.beq] at h
  | .bool _, .obj _, h => by simp [Json.beq] at h
  | .int _, .null, h => by simp [Json.beq] at h
  | .int _, .bool _, h => by simp [Json.beq] at h
  | .int _, .str _, h => by simp [Json.beq] at h
  | .int _, .arr _, h => by simp [Json.beq] at h
  | .int _, .obj _, h => by simp [Json.beq] at h
  | .str _, .null, h => by simp [Json.beq] at h
  | .str _, .bool _, h => by simp [Json.beq] at h
  | .str _, .int _, h => by simp [Json.beq] at h
  | .str _, .arr _, h => by simp [Json.beq] at h
  | .str _, .obj _, h => by simp [Json.beq] at h
  | .arr _, .null, h => by simp [Json.beq] at h
  | .arr _, .bool _, h => by simp [Json.beq] at h
  | .arr _, .int _, h => by simp [Json.beq] at h
  | .arr _, .str _, h => by simp [Json.beq] at h
  | .arr _, .obj _, h => by simp [Json.beq] at h
  | .obj _, .null, h => by simp [Json.beq] at h
  | .obj _, .bool _, h => by simp [Json.beq] at h
  | .obj _, .int _, h => by simp [Json.beq] at h
  | .obj _, .str _, h => by simp [Json.beq] at h
  | .obj _, .arr _, h => by simp [Json.beq] at h

theorem Json.eqList_of_beq : ∀ {as bs : List Json}, Json.beqList as bs = true → as = bs
  | [], [], _ => rfl
  | a :: as, b :: bs, h => by
    have h' := h
    simp only [Json.beqList, Bool.and_eq_true] at h'
    rw [Json.eq_of_beq h'.1, Json.eqList_of_beq h'.2]
  | [], _ :: _, h => by simp [Json.beqList] at h
  | _ :: _, [], h => by simp [Json.beqList] at h

theorem Json.eqFields_of_beq :
    ∀ {as bs : List (String × Json)}, Json.beqFields as bs = true → as = bs
  | [], [], _ => rfl
  | (j, a) :: as, (k, b) :: bs, h => by
    have h' := h
    simp only [Json.beqFields, Bool.and_eq_true, beq_iff_eq] at h'
    rw [h'.1.1, Json.eq_of_beq h'.1.2, Json.eqFields_of_beq h'.2]
  | [], _ :: _, h => by simp [Json.beqFields] at h
  | _ :: _, [], h => by simp [Json.beqFields] at h

end

mutual

theorem Json.beq_refl : ∀ (a : Json), Json.beq a a = true
  | .null => rfl
  | .bool _ => by simp [Json.beq]
  | .int _ => by simp [Json.beq]
  | .str _ => by simp [Json.beq]
  | .arr as => by simpa [Json.beq] using Json.beqList_refl as
  | .obj as => by simpa [Json.beq] using Json.beqFields_refl as

theorem Json.beqList_refl : ∀ (as : List Json), Json.beqList as as = true
  | [] => rfl
  | a :: as => by
    simp only [Json.beqList, Bool.and_eq_true]
    exact ⟨Json.beq_refl a, Json.beqList_refl as⟩

theorem Json.beqFields_refl : ∀ (as : List (String × Json)), Json.beqFields as as = true
  | [] => rfl
  | (k, a) :: as => by
    simp only [Json.beqFields, Bool.and_eq_true, beq_self_eq_true, true_and]
    exact ⟨Json.beq_refl a, Json.beqFields_refl as⟩

end

instance : DecidableEq Json := fun a b =>
  decidable_of_iff (Json.beq a b = true)
    ⟨fun h => Json.eq_of_beq h, fun h => h ▸ Json.beq_refl a⟩

/-! Accessors mirroring the Python operations used by the resolver. -/

/-- First binding of `key` in an association list (Python dicts have unique
keys, so first-match lookup coincides with `dict.get`). -/
def lookupField (key : String) : List (String × Json) → Option Json
  | [] => none
  | (k, v) :: rest => if k = key then some v else lookupField key rest

/-- `d.get(key)` on a dict; `none` on a missing key or a non-dict value. -/
def Json.get (j : Json) (key : String) : Option Json :=
  match j with
  | .obj fields => lookupField key fields
  | _ => none

/-- `isinstance(x, dict)`. -/
def Json.isObj : Json → Bool
  | .obj _ => true
  | _ => false

/-- `isinstance(x, (dict, list))`: only these values are pushed on the
traversal stack. -/
def Json.isContainer : Json → Bool
  | .obj _ => true
  | .arr _ => true
  | _ => false

/-- `isinstance(x, int)` on a JSON value.  In Python `bool` is a subclass of
`int`, so JSON `true`/`false` count as the integers 1/0. -/
def Json.asInt : Json → Option Int
  | .int n => some n
  | .bool b => some (if b then 1 else 0)
  | _ => none

/-- Python truthiness of a JSON value: `None`, `False`, `0`, `""`, `[]` and
`{}` are falsy, everything else truthy. -/
def Json.truthy : Json → Bool
  | .null => false
  | .bool b => b
  | .int n => n ≠ 0
  | .str s => s ≠ ""
  | .arr items => !items.isEmpty
  | .obj fields => !fields.isEmpty

/-- `needle` occurs at the start of `hay`. -/
def beginsWith : List Char → List Char → Bool
  | [], _ => true
  | _ :: _, [] => false
  | a :: as, b :: bs => a = b && beginsWith as bs

/-- `needle` occurs somewhere in `hay` (Python's `needle in hay` on `str`). -/
def hasSubstring (needle : List Char) : List Char → Bool
  | [] => beginsWith needle []
  | c :: rest => beginsWith needle (c :: rest) || hasSubstring needle rest

/-- ASCII lowercasing of one character, as `str.lower` does on the key
characters relevant here. -/
def lowerChar (c : Char) : Char :=
  if 'A' ≤ c ∧ c ≤ 'Z' then Char.ofNat (c.toNat + 32) else c

/-- `'watch' in key.lower()` for a mapping key. -/
def keyHasWatch (key : String) : Bool :=
  hasSubstring "watch".toList (key.toList.map lowerChar)

/-! Structural size of a JSON value: the termination measure of the walk. -/

mutual

/-- Number of constructors of a JSON value. -/
def Json.size : Json → Nat
  | .null => 1
  | .bool _ => 1
  | .int _ => 1
  | .str _ => 1
  | .arr items => 1 + Json.sizeList items
  | .obj fields => 1 + Json.sizeFields fields

/-- Sum of sizes of a list of JSON values. -/
def Json.sizeList : List Json → Nat
  | [] => 0
  | j :: rest => Json.size j + Json.sizeList rest

/-- Sum of sizes of the values of an association list. -/
def Json.sizeFields : List (String × Json) → Nat
  | [] => 0
  | (_, v) :: rest => Json.size v + Json.sizeFields rest

end

theorem Json.size_pos (j : Json) : 0 < j.size := by
  cases j <;> simp [Json.size]

/-!
## The tree walk of `_collect_watchlist_entries`

The Python helper keeps a stack of `(node, include_children, current_team)`
triples, popping from the end of the list; children of a node are appended in
iteration order, which makes the walk a depth-first traversal that visits
siblings in reverse order.  The Lean stack keeps its top at the head, so a
Python `append` of the child list corresponds to consing the reversed child
list.
-/

/-- One pending stack entry: `(node, include_children, current_team)`. -/
abbrev StackItem := Json × Bool × Option Int

/-- `include_children and 'player' in current and isinstance(current['player'], dict)`,
the capture test, without the flag. -/
def hasPlayerDict (j : Json) : Bool :=
  match j.get "player" with
  | some (Json.obj _) => true
  | _ => false

/-- `team_value = current['teamId'] if isinstance(current.get('teamId'), int)
else current_team`. -/
def teamValue (j : Json) (inherited : Option Int) : Option Int :=
  match (j.get "teamId").bind Json.asInt with
  | some n => some n
  | none => inherited

/-- The stack items appended for the children of a dict node: each
dict/list-valued field, with the include flag turned on when the key contains
`"watch"` and the updated team context. -/
def dictChildren (fields : List (String × Json)) (inc : Bool) (team : Option Int) :
    List StackItem :=
  (fields.filter (fun kv => kv.2.isContainer)).map
    (fun kv => (kv.2, inc || keyHasWatch kv.1, team))

/-- The stack items appended for the elements of a list node: each dict/list
item with the flags inherited unchanged. -/
def listChildren (items : List Json) (inc : Bool) (team : Option Int) : List StackItem :=
  (items.filter Json.isContainer).map (fun j => (j, inc, team))

/-- Total size of the JSON values pending on the stack. -/
def stackMeasure : List StackItem → Nat
  | [] => 0
  | (j, _, _) :: rest => j.size + stackMeasure rest

theorem stackMeasure_append (s t : List StackItem) :
    stackMeasure (s ++ t) = stackMeasure s + stackMeasure t := by
  induction s with
  | nil => simp [stackMeasure]
  | cons it rest ih =>
    obtain ⟨j, b, tm⟩ := it
    simp [stackMeasure, ih]
    omega

theorem stackMeasure_reverse (s : List StackItem) :
    stackMeasure s.reverse = stackMeasure s := by
  induction s with
  | nil => rfl
  | cons it rest ih =>
    obtain ⟨j, b, tm⟩ := it
    simp [stackMeasure, List.reverse_cons, stackMeasure_append, ih]
    omega

theorem stackMeasure_dictChildren (fields : List (String × Json)) (inc : Bool)
    (team : Option Int) :
    stackMeasure (dictChildren fields inc team) ≤ Json.sizeFields fields := by
  induction fields with
  | nil => simp [dictChildren, stackMeasure, Json.sizeFields]
  | cons kv rest ih =>
    obtain ⟨k, v⟩ := kv
    by_cases h : v.isContainer = true
    · simp [dictChildren, List.filter, h, stackMeasure, Json.sizeFields] at *
      omega
    · simp [dictChildren, List.filter, h, stackMeasure, Json.sizeFields] at *
      have := Json.size_pos v
      omega

theorem stackMeasure_listChildren (items : List Json) (inc : Bool) (team : Option Int) :
    stackMeasure (listChildren items inc team) ≤ Json.sizeList items := by
  induction items with
  | nil => simp [listChildren, stackMeasure, Json.sizeList]
  | cons v rest ih =>
    by_cases h : v.isContainer = true
    · simp [listChildren, List.filter, h, stackMeasure, Json.sizeList] at *
      omega
    · simp [listChildren, List.filter, h, stackMeasure, Json.sizeList] at *
      have := Json.size_pos v
      omega

theorem stackMeasure_dict_lt (fields : List (String × Json)) (inc : Bool)
    (tm : Option Int) (b : Bool) (t : Option Int) (rest : List StackItem) :
    stackMeasure ((dictChildren fields inc tm).reverse ++ rest) <
      stackMeasure ((Json.obj fields, b, t) :: rest) := by
  have h := stackMeasure_dictChildren fields inc tm
  simp only [stackMeasure_append, stackMeasure_reverse, stackMeasure, Json.size]
  omega

theorem stackMeasure_list_lt (items : List Json) (inc : Bool) (tm : Option Int)
    (b : Bool) (t : Option Int) (rest : List StackItem) :
    stackMeasure ((listChildren items inc tm).reverse ++ rest) <
      stackMeasure ((Json.arr items, b, t) :: rest) := by
  have h := stackMeasure_listChildren items inc tm
  simp only [stackMeasure_append, stackMeasure_reverse, stackMeasure, Json.size]
  omega

theorem stackMeasure_rest_lt (j : Json) (b : Bool) (t : Option Int)
    (rest : List StackItem) :
    stackMeasure rest < stackMeasure ((j, b, t) :: rest) := by
  have := Json.size_pos j
  simp only [stackMeasure]
  omega

/-- The `while stack:` loop of `_collect_watchlist_entries`, returning the
captured `(team, entry)` pairs in capture order.  A dict node with the
inherited include flag and a dict-valued `player` field is captured and its
children are not visited; otherwise its dict/list-valued fields are pushed
(with updated flags); list nodes push their dict/list elements; scalars are
dropped. -/
def collectLoop : List StackItem → List (Option Int × Json)
  | [] => []
  | (Json.obj fields, inc, team) :: rest =>
    if inc && hasPlayerDict (Json.obj fields) then
      (teamValue (Json.obj fields) team, Json.obj fields) :: collectLoop rest
    else
      collectLoop ((dictChildren fields inc (teamValue (Json.obj fields) team)).reverse ++ rest)
  | (Json.arr items, inc, team) :: rest =>
    collectLoop ((listChildren items inc team).reverse ++ rest)
  | (other, _, _) :: rest => collectLoop rest
termination_by stack => stackMeasure stack
decreasing_by
  all_goals
    first
      | exact stackMeasure_rest_lt _ _ _ _
      | exact stackMeasure_dict_lt _ _ _ _ _ _
      | exact stackMeasure_list_lt _ _ _ _ _ _

/-- `_collect_watchlist_entries(node)`: run the stack loop from
`[(node, False, None)]`. -/
def collectWatchlistEntries (node : Json) : List (Option Int × Json) :=
  collectLoop [(node, false, none)]

/-!
## The selection phase of `team_watchlist`

Two almost identical loops: the first filters out entries attributed to a
*different known* team, the second (run only when the first selected nothing
and a team was requested) takes entries regardless of team.  Both skip
entries without a dict-valued `player` field, deduplicate through the shared
`seen_player_ids` set, and stop once `len(selected_entries) >= size` — a test
made *after* appending.
-/

/-- `entry.get('player')` when it is a dict, else `None`
(`if not isinstance(player_payload, dict): continue`). -/
def entryPlayer (entry : Json) : Option Json :=
  match entry.get "player" with
  | some (Json.obj fs) => some (Json.obj fs)
  | _ => none

/-- Python `a or b`: keep `a` when it is truthy, otherwise evaluate to `b`.
`none` stands for Python `None` (a missing key). -/
def pyOr (a b : Option Json) : Option Json :=
  match a with
  | some v => if v.truthy then some v else b
  | none => b

/-- `player_id = entry.get('playerId') or player_payload.get('id')`. -/
def entryKey (entry player : Json) : Option Json :=
  pyOr (entry.get "playerId") (player.get "id")

/-- One pass of the selection loop over `entries_with_team`, carrying the
already `selected_entries` (`acc`) and `seen_player_ids` (`seen`).  With
`useFilter = true` this is the first loop (skipping entries whose team is
known and differs from `team_id`); with `useFilter = false` it is the
fallback loop, which has no team test. -/
def selectLoop (team_id : Option Int) (size : Int) (useFilter : Bool) :
    List (Option Int × Json) → List Json → List (Option Json) →
    List Json × List (Option Json)
  | [], acc, seen => (acc, seen)
  | (entryTeam, entry) :: rest, acc, seen =>
    if useFilter && team_id.isSome && entryTeam.isSome && entryTeam != team_id then
      selectLoop team_id size useFilter rest acc seen
    else
      match entryPlayer entry with
      | none => selectLoop team_id size useFilter rest acc seen
      | some player =>
        if entryKey entry player ∈ seen then selectLoop team_id size useFilter rest acc seen
        else
          if (acc.length + 1 : Int) ≥ size then
            (acc ++ [entry], entryKey entry player :: seen)
          else
            selectLoop team_id size useFilter rest (acc ++ [entry])
              (entryKey entry player :: seen)

/-- The whole selection phase: the filtered loop, then — only when it selected
nothing and a team was requested — the unfiltered fallback loop over the same
pairs, continuing with the same `seen_player_ids` set. -/
def resolveEntries (team_id : Option Int) (size : Int)
    (pairs : List (Option Int × Json)) : List Json :=
  let first := selectLoop team_id size true pairs [] []
  if first.1.isEmpty && team_id.isSome then
    (selectLoop team_id size false pairs [] first.2).1
  else first.1

/-!
## Payload-shape handling of `team_watchlist`
-/

/-- `entries_with_team` from the primary response: the tree walk, run only
when the payload is a *nonempty* dict (`isinstance(data, dict) and data`). -/
def primaryEntries (data : Json) : List (Option Int × Json) :=
  if data.isObj && data.truthy then collectWatchlistEntries data else []

/-- The legacy `mWatchlist` view is fetched iff the walk produced nothing and
the primary payload is not a dict with a top-level `playerWatchList` key. -/
def usesLegacyFetch (data : Json) : Bool :=
  (primaryEntries data).isEmpty && !(data.isObj && (data.get "playerWatchList").isSome)

/-- Parsing of the legacy response: a top-level `players` list, else a
`watchlist` dict holding a `players` list; dict entries are paired with the
*requested* team id. -/
def legacyParse (team_id : Option Int) (data : Json) : List (Option Int × Json) :=
  if data.isObj then
    match data.get "players" with
    | some (Json.arr items) => (items.filter Json.isObj).map (fun e => (team_id, e))
    | _ =>
      match data.get "watchlist" with
      | some (Json.obj wfs) =>
        match (Json.obj wfs).get "players" with
        | some (Json.arr items) => (items.filter Json.isObj).map (fun e => (team_id, e))
        | _ => []
      | _ => []
  else []

/-- The last-resort parse over whatever `data` holds at that point: the same
two shapes, with entries paired with no team. -/
def rawFallbackParse (data : Json) : List (Option Int × Json) :=
  match data.get "players" with
  | some (Json.arr items) => (items.filter Json.isObj).map (fun e => ((none : Option Int), e))
  | _ =>
    match data.get "watchlist" with
    | some (Json.obj wfs) =>
      match (Json.obj wfs).get "players" with
      | some (Json.arr items) => (items.filter Json.isObj).map (fun e => ((none : Option Int), e))
      | _ => []
    | _ => []

/-- The `entries_with_team` list that reaches the selection phase.  Note that
after a legacy fetch the local variable `data` is rebound to the legacy
response, so the final `players`/`watchlist` parse reads the *legacy* payload
in that case, not the primary one. -/
def watchlistPairs (team_id : Option Int) (primary legacy : Json) :
    List (Option Int × Json) :=
  let staged :=
    if usesLegacyFetch primary then (legacy, legacyParse team_id legacy)
    else (primary, primaryEntries primary)
  if staged.2.isEmpty && staged.1.isObj then rawFallbackParse staged.1 else staged.2

/-- One network fetch through `espn_request.league_get`, with the request
parameters the claims talk about. -/
inductive FetchCall where
  | primaryView
  | legacyView (team_id : Option Int) (size : Int)
  deriving Repr, DecidableEq

/-- `League.team_watchlist(team_id, size)` over pure fetch results: `primary`
is what the `player_wl` view would return and `legacy` what the `mWatchlist`
view would return.  The result is the `selected_entries` list (the `Player`
construction on each entry is out of scope) together with the fetches
issued, in order. -/
def team_watchlist (year : Int) (primary legacy : Json) (team_id : Option Int)
    (size : Int) : Except String (List Json) × List FetchCall :=
  if year < 2019 then (Except.error "Cant use watchlist before 2019", [])
  else
    let calls :=
      if usesLegacyFetch primary then
        [FetchCall.primaryView, FetchCall.legacyView team_id size]
      else [FetchCall.primaryView]
    (Except.ok (resolveEntries team_id size (watchlistPairs team_id primary legacy)), calls)

/-!
## The season-probing variant (spec-modelled)
-/

/-- Modelled from the spec: the repository's `watchlist_players` method and
the underlying `get_watchlist_players` fetch are not among the provided
sources (only the unit tests reference them).  Per spec §4.2, iterate the
candidate season ids in order, invoking the paged fetch for each; return the
first non-empty raw list (page construction into player records is out of
scope), or the empty list once all candidates are exhausted.  The second
component logs the `(season_id, limit, offset)` fetch invocations in order. -/
def collect_across_seasons (fetchPage : Int → Int → Int → List Json)
    (limit offset : Int) : List Int → List Json × List (Int × Int × Int)
  | [] => ([], [])
  | s :: rest =>
    let page := fetchPage s limit offset
    if page.isEmpty then
      let next := collect_across_seasons fetchPage limit offset rest
      (next.1, (s, limit, offset) :: next.2)
    else (page, [(s, limit, offset)])

/-- Modelled from the spec: `watchlist_players(limit, offset, season_ids)`
defaults the candidate seasons to the league's configured year followed by
`year + 1`, and runs the probing loop. -/
def watchlist_players (fetchPage : Int → Int → Int → List Json) (year : Int)
    (limit offset : Int) (seasonIds : Option (List Int)) :
    List Json × List (Int × Int × Int) :=
  collect_across_seasons fetchPage limit offset (seasonIds.getD [year, year + 1])

/-!
## Claim-side reference definitions

These definitions follow the wording of the spec and of the claims, to be
compared with the embedding above.
-/

mutual

/-- Claim-side characterization of the walk (C1): a dict node is captured
when some mapping key on the path from the root contains `"watch"`
case-insensitively and the node's `player` field is itself a dict; it is
paired with the nearest enclosing integer `teamId`; the walk does not descend
into a captured node; children are listed in natural (document) order. -/
def specCollect : Json → Bool → Option Int → List (Option Int × Json)
  | .obj fields, inc, team =>
    if inc && hasPlayerDict (.obj fields) then
      [(teamValue (.obj fields) team, .obj fields)]
    else specCollectFields fields inc (teamValue (.obj fields) team)
  | .arr items, inc, team => specCollectItems items inc team
  | _, _, _ => []

/-- `specCollect` over the fields of a dict, in document order. -/
def specCollectFields : List (String × Json) → Bool → Option Int → List (Option Int × Json)
  | [], _, _ => []
  | (k, v) :: rest, inc, team =>
    (if v.isContainer then specCollect v (inc || keyHasWatch k) team else []) ++
      specCollectFields rest inc team

/-- `specCollect` over the elements of a list, in document order. -/
def specCollectItems : List Json → Bool → Option Int → List (Option Int × Json)
  | [], _, _ => []
  | v :: rest, inc, team =>
    (if v.isContainer then specCollect v inc team else []) ++ specCollectItems rest inc team

end

mutual

/-- The same depth-first capture as `specCollect` but visiting siblings in
*reverse* document order — the order the LIFO stack of the Python code
actually produces. -/
def revDfs : Json → Bool → Option Int → List (Option Int × Json)
  | .obj fields, inc, team =>
    if inc && hasPlayerDict (.obj fields) then
      [(teamValue (.obj fields) team, .obj fields)]
    else revDfsFields fields inc (teamValue (.obj fields) team)
  | .arr items, inc, team => revDfsItems items inc team
  | _, _, _ => []

/-- `revDfs` over dict fields, last field first. -/
def revDfsFields : List (String × Json) → Bool → Option Int → List (Option Int × Json)
  | [], _, _ => []
  | (k, v) :: rest, inc, team =>
    revDfsFields rest inc team ++
      (if v.isContainer then revDfs v (inc || keyHasWatch k) team else [])

/-- `revDfs` over list elements, last element first. -/
def revDfsItems : List Json → Bool → Option Int → List (Option Int × Json)
  | [], _, _ => []
  | v :: rest, inc, team =>
    revDfsItems rest inc team ++ (if v.isContainer then revDfs v inc team else [])

end

/-- The player identifier exactly as claim C5 words it: "the entry's
`playerId` field when present, else the nested player mapping's `id`
field". -/
def claimKey (entry : Json) : Option Json :=
  match entry.get "playerId" with
  | some v => some v
  | none =>
    match entry.get "player" with
    | some p => p.get "id"
    | none => none

/-- The player identifier the code actually deduplicates by (total version of
`entryKey`): the `playerId` field when present *and truthy*, else the nested
player's `id` field; `none` when the entry has no dict-valued player. -/
def selKey (entry : Json) : Option Json :=
  match entryPlayer entry with
  | some player => entryKey entry player
  | none => none

/-- Claim-side fallback (C6): the first `size` valid entries in order,
regardless of team attribution, deduplicated by player identifier. -/
def takeValidDedup : Int → List Json → List (Option Json) → List Json
  | _, [], _ => []
  | size, e :: rest, seen =>
    match entryPlayer e with
    | none => takeValidDedup size rest seen
    | some player =>
      if entryKey e player ∈ seen then takeValidDedup size rest seen
      else if 1 ≤ size then
        e :: takeValidDedup (size - 1) rest (entryKey e player :: seen)
      else []

/-!
## Lemmas: decomposing the stack loop
-/

/-- Processing a stack is processing its top part, then the rest: the loop's
output decomposes along `++`. -/
theorem collectLoop_append : ∀ (s₁ s₂ : List StackItem),
    collectLoop (s₁ ++ s₂) = collectLoop s₁ ++ collectLoop s₂
  | [], s₂ => by simp [collectLoop]
  | (Json.obj fields, inc, team) :: rest, s₂ => by
    by_cases h : (inc && hasPlayerDict (Json.obj fields)) = true
    · simp only [List.cons_append, collectLoop, if_pos h]
      rw [collectLoop_append rest s₂]
    · simp only [List.cons_append, collectLoop, if_neg h]
      rw [← List.append_assoc,
        collectLoop_append
          ((dictChildren fields inc (teamValue (Json.obj fields) team)).reverse ++ rest) s₂]
  | (Json.arr items, inc, team) :: rest, s₂ => by
    simp only [List.cons_append, collectLoop]
    rw [← List.append_assoc, collectLoop_append ((listChildren items inc team).reverse ++ rest) s₂]
  | (Json.null, inc, team) :: rest, s₂ => by
    simp only [List.cons_append, collectLoop]
    exact collectLoop_append rest s₂
  | (Json.bool v, inc, team) :: rest, s₂ => by
    simp only [List.cons_append, collectLoop]
    exact collectLoop_append rest s₂
  | (Json.int v, inc, team) :: rest, s₂ => by
    simp only [List.cons_append, collectLoop]
    exact collectLoop_append rest s₂
  | (Json.str v, inc, team) :: rest, s₂ => by
    simp only [List.cons_append, collectLoop]
    exact collectLoop_append rest s₂
termination_by s₁ _ => stackMeasure s₁
decreasing_by
  all_goals
    first
      | exact stackMeasure_rest_lt _ _ _ _
      | exact stackMeasure_dict_lt _ _ _ _ _ _
      | exact stackMeasure_list_lt _ _ _ _ _ _

mutual

/-- The stack loop started on a single node computes the reverse-sibling-order
depth-first capture. -/
theorem collectLoop_single : ∀ (j : Json) (inc : Bool) (team : Option Int),
    collectLoop [(j, inc, team)] = revDfs j inc team
  | Json.obj fields, inc, team => by
    by_cases h : (inc && hasPlayerDict (Json.obj fields)) = true
    · simp only [collectLoop, if_pos h, revDfs]
    · simp only [collectLoop, if_neg h, revDfs]
      rw [List.append_nil]
      exact collectLoop_fields_rev fields inc (teamValue (Json.obj fields) team)
  | Json.arr items, inc, team => by
    simp only [collectLoop, revDfs]
    rw [List.append_nil]
    exact collectLoop_items_rev items inc team
  | Json.null, inc, team => by simp [collectLoop, revDfs]
  | Json.bool v, inc, team => by simp [collectLoop, revDfs]
  | Json.int v, inc, team => by simp [collectLoop, revDfs]
  | Json.str v, inc, team => by simp [collectLoop, revDfs]
termination_by j _ _ => 2 * j.size
decreasing_by
  all_goals simp only [Json.size]
  all_goals omega

/-- The loop over the reversed child stack of a dict node visits the fields
in reverse document order. -/
theorem collectLoop_fields_rev :
    ∀ (fields : List (String × Json)) (inc : Bool) (team : Option Int),
    collectLoop (dictChildren fields inc team).reverse = revDfsFields fields inc team
  | [], _, _ => by simp [dictChildren, collectLoop, revDfsFields]
  | (k, v) :: rest, inc, team => by
    by_cases h : v.isContainer = true
    · have hc : dictChildren ((k, v) :: rest) inc team =
          (v, inc || keyHasWatch k, team) :: dictChildren rest inc team := by
        simp [dictChildren, List.filter, h]
      rw [hc, List.reverse_cons, collectLoop_append, collectLoop_fields_rev rest inc team,
        collectLoop_single v (inc || keyHasWatch k) team]
      simp [revDfsFields, h]
    · have hc : dictChildren ((k, v) :: rest) inc team = dictChildren rest inc team := by
        simp [dictChildren, List.filter, h]
      rw [hc, collectLoop_fields_rev rest inc team]
      simp [revDfsFields, h]
termination_by fields _ _ => 2 * Json.sizeFields fields + 1
decreasing_by
  all_goals simp only [Json.sizeFields]
  all_goals have := Json.size_pos v
  all_goals omega

/-- The loop over the reversed child stack of a list node visits the elements
in reverse document order. -/
theorem collectLoop_items_rev :
    ∀ (items : List Json) (inc : Bool) (team : Option Int),
    collectLoop (listChildren items inc team).reverse = revDfsItems items inc team
  | [], _, _ => by simp [listChildren, collectLoop, revDfsItems]
  | v :: rest, inc, team => by
    by_cases h : v.isContainer = true
    · have hc : listChildren (v :: rest) inc team =
          (v, inc, team) :: listChildren rest inc team := by
        simp [listChildren, List.filter, h]
      rw [hc, List.reverse_cons, collectLoop_append, collectLoop_items_rev rest inc team,
        collectLoop_single v inc team]
      simp [revDfsItems, h]
    · have hc : listChildren (v :: rest) inc team = listChildren rest inc team := by
        simp [listChildren, List.filter, h]
      rw [hc, collectLoop_items_rev rest inc team]
      simp [revDfsItems, h]
termination_by items _ _ => 2 * Json.sizeList items + 1
decreasing_by
  all_goals simp only [Json.sizeList]
  all_goals have := Json.size_pos v
  all_goals omega

end

mutual

/-- Reversing the sibling order at every level permutes the captured pairs. -/
theorem revDfs_perm : ∀ (j : Json) (inc : Bool) (team : Option Int),
    (revDfs j inc team).Perm (specCollect j inc team)
  | Json.obj fields, inc, team => by
    by_cases h : (inc && hasPlayerDict (Json.obj fields)) = true
    · simp only [revDfs, specCollect, if_pos h]
      exact List.Perm.refl _
    · simp only [revDfs, specCollect, if_neg h]
      exact revDfsFields_perm fields inc (teamValue (Json.obj fields) team)
  | Json.arr items, inc, team => revDfsItems_perm items inc team
  | Json.null, _, _ => List.Perm.refl _
  | Json.bool _, _, _ => List.Perm.refl _
  | Json.int _, _, _ => List.Perm.refl _
  | Json.str _, _, _ => List.Perm.refl _
termination_by j _ _ => 2 * j.size
decreasing_by
  all_goals simp only [Json.size]
  all_goals omega

theorem revDfsFields_perm : ∀ (fields : List (String × Json)) (inc : Bool) (team : Option Int),
    (revDfsFields fields inc team).Perm (specCollectFields fields inc team)
  | [], _, _ => List.Perm.refl _
  | (k, v) :: rest, inc, team => by
    have h1 := revDfsFields_perm rest inc team
    have h2 : (if v.isContainer then revDfs v (inc || keyHasWatch k) team else []).Perm
        (if v.isContainer then specCollect v (inc || keyHasWatch k) team else []) := by
      by_cases h : v.isContainer = true
      · simpa [h] using revDfs_perm v (inc || keyHasWatch k) team
      · simp [h]
    simp only [revDfsFields, specCollectFields]
    exact List.Perm.trans List.perm_append_comm (h2.append h1)
termination_by fields _ _ => 2 * Json.sizeFields fields + 1
decreasing_by
  all_goals simp only [Json.sizeFields]
  all_goals have := Json.size_pos v
  all_goals omega

theorem revDfsItems_perm : ∀ (items : List Json) (inc : Bool) (team : Option Int),
    (revDfsItems items inc team).Perm (specCollectItems items inc team)
  | [], _, _ => List.Perm.refl _
  | v :: rest, inc, team => by
    have h1 := revDfsItems_perm rest inc team
    have h2 : (if v.isContainer then revDfs v inc team else []).Perm
        (if v.isContainer then specCollect v inc team else []) := by
      by_cases h : v.isContainer = true
      · simpa [h] using revDfs_perm v inc team
      · simp [h]
    simp only [revDfsItems, specCollectItems]
    exact List.Perm.trans List.perm_append_comm (h2.append h1)
termination_by items _ _ => 2 * Json.sizeList items + 1
decreasing_by
  all_goals simp only [Json.sizeList]
  all_goals have := Json.size_pos v
  all_goals omega

end

/-!
## Lemmas: the selection loops
-/

/-- Entries already selected stay a prefix of the loop's result. -/
theorem selectLoop_acc_leading (t : Option Int) (size : Int) (uf : Bool)
    (pairs : List (Option Int × Json)) :
    ∀ (acc : List Json) (seen : List (Option Json)),
    acc <+: (selectLoop t size uf pairs acc seen).1 := by
  induction pairs with
  | nil => intro acc seen; exact List.prefix_rfl
  | cons p rest ih =>
    obtain ⟨tm, e⟩ := p
    intro acc seen
    simp only [selectLoop]
    by_cases hf : (uf && t.isSome && tm.isSome && tm != t) = true
    · rw [if_pos hf]; exact ih acc seen
    · rw [if_neg hf]
      cases hp : entryPlayer e with
      | none => exact ih acc seen
      | some player =>
        by_cases hs : entryKey e player ∈ seen
        · simp only [hs, if_true]; exact ih acc seen
        · simp only [hs, if_false]
          by_cases hz : (acc.length + 1 : Int) ≥ size
          · rw [if_pos hz]; exact List.prefix_append acc [e]
          · rw [if_neg hz]
            exact (List.prefix_append acc [e]).trans
              (ih (acc ++ [e]) (entryKey e player :: seen))

/-- The loop's result consists of the accumulator followed by a subsequence
of the scanned entries, in scan order. -/
theorem selectLoop_sublist (t : Option Int) (size : Int) (uf : Bool)
    (pairs : List (Option Int × Json)) :
    ∀ (acc : List Json) (seen : List (Option Json)),
    (selectLoop t size uf pairs acc seen).1.Sublist (acc ++ pairs.map Prod.snd) := by
  induction pairs with
  | nil => intro acc seen; simp [selectLoop]
  | cons p rest ih =>
    obtain ⟨tm, e⟩ := p
    intro acc seen
    have hskip : (selectLoop t size uf rest acc seen).1.Sublist
        (acc ++ (e :: rest.map Prod.snd)) := by
      refine (ih acc seen).trans (List.Sublist.append_left ?_ acc)
      exact List.sublist_cons_self e (rest.map Prod.snd)
    simp only [selectLoop, List.map_cons]
    by_cases hf : (uf && t.isSome && tm.isSome && tm != t) = true
    · rw [if_pos hf]; exact hskip
    · rw [if_neg hf]
      cases hp : entryPlayer e with
      | none => exact hskip
      | some player =>
        by_cases hs : entryKey e player ∈ seen
        · simp only [hs, if_true]; exact hskip
        · simp only [hs, if_false]
          by_cases hz : (acc.length + 1 : Int) ≥ size
          · rw [if_pos hz]
            exact List.Sublist.append_left
              (List.Sublist.cons₂ e (List.nil_sublist _)) acc
          · rw [if_neg hz]
            have := ih (acc ++ [e]) (entryKey e player :: seen)
            rw [List.append_assoc, List.singleton_append] at this
            exact this

/-- Size bound, filling half: while fewer than `size` entries stand selected,
the loop keeps the bound `size`. -/
theorem selectLoop_length_lt (t : Option Int) (size : Int) (uf : Bool)
    (pairs : List (Option Int × Json)) :
    ∀ (acc : List Json) (seen : List (Option Json)),
    (acc.length : Int) < size →
    ((selectLoop t size uf pairs acc seen).1.length : Int) ≤ size := by
  induction pairs with
  | nil => intro acc seen h; simpa [selectLoop] using le_of_lt h
  | cons p rest ih =>
    obtain ⟨tm, e⟩ := p
    intro acc seen h
    simp only [selectLoop]
    by_cases hf : (uf && t.isSome && tm.isSome && tm != t) = true
    · rw [if_pos hf]; exact ih acc seen h
    · rw [if_neg hf]
      cases hp : entryPlayer e with
      | none => exact ih acc seen h
      | some player =>
        by_cases hs : entryKey e player ∈ seen
        · simp only [hs, if_true]; exact ih acc seen h
        · simp only [hs, if_false]
          by_cases hz : (acc.length + 1 : Int) ≥ size
          · rw [if_pos hz]
            simp only [List.length_append, List.length_singleton]
            push_cast
            omega
          · rw [if_neg hz]
            refine ih (acc ++ [e]) (entryKey e player :: seen) ?_
            simp only [List.length_append, List.length_singleton]
            push_cast at hz ⊢
            omega

/-- Size bound, overfull half: once `size ≤ len(selected) + 1`, at most one
more entry is ever appended. -/
theorem selectLoop_length_ge (t : Option Int) (size : Int) (uf : Bool)
    (pairs : List (Option Int × Json)) :
    ∀ (acc : List Json) (seen : List (Option Json)),
    size ≤ (acc.length : Int) + 1 →
    (selectLoop t size uf pairs acc seen).1.length ≤ acc.length + 1 := by
  induction pairs with
  | nil => intro acc seen h; simp [selectLoop]
  | cons p rest ih =>
    obtain ⟨tm, e⟩ := p
    intro acc seen h
    simp only [selectLoop]
    by_cases hf : (uf && t.isSome && tm.isSome && tm != t) = true
    · rw [if_pos hf]; exact ih acc seen h
    · rw [if_neg hf]
      cases hp : entryPlayer e with
      | none => exact ih acc seen h
      | some player =>
        by_cases hs : entryKey e player ∈ seen
        · simp only [hs, if_true]; exact ih acc seen h
        · simp only [hs, if_false]
          by_cases hz : (acc.length + 1 : Int) ≥ size
          · rw [if_pos hz]; simp
          · exact absurd h (by push_cast at hz ⊢; omega)

theorem selKey_of_player {e player : Json} (hp : entryPlayer e = some player) :
    selKey e = entryKey e player := by
  simp [selKey, hp]

/-- Keys of selected entries are tracked in `seen`, so no key ever repeats in
the selection. -/
theorem selectLoop_nodup (t : Option Int) (size : Int) (uf : Bool)
    (pairs : List (Option Int × Json)) :
    ∀ (acc : List Json) (seen : List (Option Json)),
    (acc.map selKey).Nodup → (∀ k ∈ acc.map selKey, k ∈ seen) →
    ((selectLoop t size uf pairs acc seen).1.map selKey).Nodup := by
  induction pairs with
  | nil => intro acc seen hacc _; simpa [selectLoop] using hacc
  | cons p rest ih =>
    obtain ⟨tm, e⟩ := p
    intro acc seen hacc hsub
    simp only [selectLoop]
    by_cases hf : (uf && t.isSome && tm.isSome && tm != t) = true
    · rw [if_pos hf]; exact ih acc seen hacc hsub
    · rw [if_neg hf]
      cases hp : entryPlayer e with
      | none => exact ih acc seen hacc hsub
      | some player =>
        by_cases hs : entryKey e player ∈ seen
        · simp only [hs, if_true]; exact ih acc seen hacc hsub
        · simp only [hs, if_false]
          have hkey : selKey e = entryKey e player := selKey_of_player hp
          have hnotin : selKey e ∉ acc.map selKey := fun hin =>
            hs (hkey ▸ hsub _ hin)
          have hacc' : ((acc ++ [e]).map selKey).Nodup := by
            rw [List.map_append]
            refine List.Nodup.append hacc (List.nodup_singleton _) ?_
            intro x hx hx'
            simp only [List.map_cons, List.map_nil, List.mem_singleton] at hx'
            subst hx'
            exact hnotin hx
          by_cases hz : (acc.length + 1 : Int) ≥ size
          · rw [if_pos hz]; exact hacc'
          · rw [if_neg hz]
            refine ih (acc ++ [e]) (entryKey e player :: seen) hacc' ?_
            intro k hk
            rw [List.map_append] at hk
            rcases List.mem_append.mp hk with hold | hnew
            · exact List.mem_cons_of_mem _ (hsub k hold)
            · simp only [List.map_cons, List.map_nil, List.mem_singleton] at hnew
              subst hnew
              rw [hkey]
              exact List.mem_cons_self _ _

/-- When the filtered loop does not skip a pair, that pair's team is either
unknown or the requested one. -/
theorem team_compatible_of_not_skipped {tid : Int} {tm : Option Int}
    (hf : ¬(true && (some tid : Option Int).isSome && tm.isSome && tm != some tid) = true) :
    tm = none ∨ tm = some tid := by
  cases tm with
  | none => exact Or.inl rfl
  | some u =>
    right
    by_contra hne
    apply hf
    simp only [Option.isSome_some, Bool.and_self, Bool.true_and, bne_iff_ne]
    exact hne

/-- Everything the filtered loop selects either stood selected already or
comes from a pair whose team is unknown or matches the request. -/
theorem selectLoop_mem_filter (tid : Int) (size : Int)
    (pairs : List (Option Int × Json)) :
    ∀ (acc : List Json) (seen : List (Option Json)) (e : Json),
    e ∈ (selectLoop (some tid) size true pairs acc seen).1 →
    e ∈ acc ∨ ∃ tm, (tm, e) ∈ pairs ∧ (tm = none ∨ tm = some tid) := by
  induction pairs with
  | nil => intro acc seen e h; simp only [selectLoop] at h; exact Or.inl h
  | cons p rest ih =>
    obtain ⟨tm, e'⟩ := p
    intro acc seen e h
    have hlift : e ∈ acc ∨ (∃ tm₀, (tm₀, e) ∈ rest ∧ (tm₀ = none ∨ tm₀ = some tid)) →
        e ∈ acc ∨ ∃ tm₀, (tm₀, e) ∈ (tm, e') :: rest ∧ (tm₀ = none ∨ tm₀ = some tid) := by
      rintro (hacc | ⟨tm₀, hmem, hok⟩)
      · exact Or.inl hacc
      · exact Or.inr ⟨tm₀, List.mem_cons_of_mem _ hmem, hok⟩
    simp only [selectLoop] at h
    by_cases hf : (true && (some tid : Option Int).isSome && tm.isSome && tm != some tid) = true
    · rw [if_pos hf] at h
      exact hlift (ih acc seen e h)
    · rw [if_neg hf] at h
      have hcompat := team_compatible_of_not_skipped hf
      cases hp : entryPlayer e' with
      | none => rw [hp] at h; exact hlift (ih acc seen e h)
      | some player =>
        rw [hp] at h
        by_cases hs : entryKey e' player ∈ seen
        · simp only [hs, if_true] at h; exact hlift (ih acc seen e h)
        · simp only [hs, if_false] at h
          by_cases hz : (acc.length + 1 : Int) ≥ size
          · rw [if_pos hz] at h
            rcases List.mem_append.mp h with hacc | hnew
            · exact Or.inl hacc
            · rw [List.mem_singleton] at hnew
              subst hnew
              exact Or.inr ⟨tm, List.mem_cons_self _ _, hcompat⟩
          · rw [if_neg hz] at h
            rcases ih (acc ++ [e']) (entryKey e' player :: seen) e h with hacc' | hrest
            · rcases List.mem_append.mp hacc' with hacc | hnew
              · exact Or.inl hacc
              · rw [List.mem_singleton] at hnew
                subst hnew
                exact Or.inr ⟨tm, List.mem_cons_self _ _, hcompat⟩
            · exact hlift (Or.inr hrest)

/-- A nonempty prefix forces a nonempty result. -/
theorem ne_nil_of_singleton_leading {e : Json} {res : List Json}
    (hpre : [e] <+: res) : res ≠ [] := by
  intro hnil
  subst hnil
  simpa using hpre.length_le

/-- When some pair carries the requested team and a dict-valued player, the
filtered loop (run from empty state) selects something. -/
theorem selectLoop_match_nonempty (tid : Int) (size : Int)
    (pairs : List (Option Int × Json)) :
    ∀ (e : Json), (some tid, e) ∈ pairs → entryPlayer e ≠ none →
    (selectLoop (some tid) size true pairs [] []).1 ≠ [] := by
  induction pairs with
  | nil => intro e h; simp at h
  | cons p rest ih =>
    obtain ⟨tm, e'⟩ := p
    intro e hmem hval
    simp only [selectLoop]
    by_cases hf : (true && (some tid : Option Int).isSome && tm.isSome && tm != some tid) = true
    · rw [if_pos hf]
      rcases List.mem_cons.mp hmem with heq | hrest
      · exfalso
        have htm : tm = some tid := (Prod.mk.injEq _ _ _ _ ▸ heq.symm).1
        subst htm
        simp at hf
      · exact ih e hrest hval
    · rw [if_neg hf]
      rcases List.mem_cons.mp hmem with heq | hrest
      · have he : e' = e := ((Prod.mk.injEq _ _ _ _).mp heq.symm).2
        subst he
        cases hp : entryPlayer e' with
        | none => exact absurd hp hval
        | some player =>
          dsimp only
          rw [if_neg (by simp : ¬entryKey e' player ∈ ([] : List (Option Json)))]
          by_cases hz : (([] : List Json).length + 1 : Int) ≥ size
          · rw [if_pos hz]; simp
          · rw [if_neg hz]
            exact ne_nil_of_singleton_leading
              (selectLoop_acc_leading _ _ _ rest [e'] (entryKey e' player :: []))
      · cases hp : entryPlayer e' with
        | none => exact ih e hrest hval
        | some player =>
          dsimp only
          rw [if_neg (by simp : ¬entryKey e' player ∈ ([] : List (Option Json)))]
          by_cases hz : (([] : List Json).length + 1 : Int) ≥ size
          · rw [if_pos hz]; simp
          · rw [if_neg hz]
            exact ne_nil_of_singleton_leading
              (selectLoop_acc_leading _ _ _ rest [e'] (entryKey e' player :: []))

/-- A loop that selects nothing leaves `seen_player_ids` untouched. -/
theorem selectLoop_empty_keeps_seen (t : Option Int) (size : Int) (uf : Bool)
    (pairs : List (Option Int × Json)) :
    ∀ (seen : List (Option Json)),
    (selectLoop t size uf pairs [] seen).1 = [] →
    (selectLoop t size uf pairs [] seen).2 = seen := by
  induction pairs with
  | nil => intro seen _; simp [selectLoop]
  | cons p rest ih =>
    obtain ⟨tm, e⟩ := p
    intro seen h
    simp only [selectLoop] at h ⊢
    by_cases hf : (uf && t.isSome && tm.isSome && tm != t) = true
    · rw [if_pos hf] at h ⊢; exact ih seen h
    · rw [if_neg hf] at h ⊢
      generalize hp : entryPlayer e = pl at h ⊢
      cases pl with
      | none => exact ih seen h
      | some player =>
        dsimp only at h ⊢
        by_cases hs : entryKey e player ∈ seen
        · simp only [hs, if_true] at h ⊢; exact ih seen h
        · simp only [hs, if_false] at h ⊢
          by_cases hz : ((([] : List Json).length : Int) + 1 : Int) ≥ size
          · rw [if_pos hz] at h; simp at h
          · rw [if_neg hz] at h
            exact absurd h (ne_nil_of_singleton_leading
              (by simpa using selectLoop_acc_leading t size uf rest [e] (entryKey e player :: seen)))

/-- When every team-compatible pair lacks a dict-valued player, the filtered
loop changes nothing. -/
theorem selectLoop_all_incompatible (tid : Int) (size : Int)
    (pairs : List (Option Int × Json)) :
    ∀ (acc : List Json) (seen : List (Option Json)),
    (∀ tm e, (tm, e) ∈ pairs → (tm = none ∨ tm = some tid) → entryPlayer e = none) →
    selectLoop (some tid) size true pairs acc seen = (acc, seen) := by
  induction pairs with
  | nil => intro acc seen _; simp [selectLoop]
  | cons p rest ih =>
    obtain ⟨tm, e⟩ := p
    intro acc seen H
    have Hrest : ∀ tm₀ e₀, (tm₀, e₀) ∈ rest → (tm₀ = none ∨ tm₀ = some tid) →
        entryPlayer e₀ = none :=
      fun tm₀ e₀ hm => H tm₀ e₀ (List.mem_cons_of_mem _ hm)
    simp only [selectLoop]
    by_cases hf : (true && (some tid : Option Int).isSome && tm.isSome && tm != some tid) = true
    · rw [if_pos hf]; exact ih acc seen Hrest
    · rw [if_neg hf]
      have hnone : entryPlayer e = none :=
        H tm e (List.mem_cons_self _ _) (team_compatible_of_not_skipped hf)
      rw [hnone]
      exact ih acc seen Hrest

/-- With no budget left, the claim-side fallback takes nothing. -/
theorem takeValidDedup_nonpos (size : Int) (l : List Json) :
    ∀ (seen : List (Option Json)), size ≤ 0 → takeValidDedup size l seen = [] := by
  induction l with
  | nil => intro seen _; simp [takeValidDedup]
  | cons e rest ih =>
    intro seen h
    simp only [takeValidDedup]
    generalize entryPlayer e = pl
    cases pl with
    | none => exact ih seen h
    | some player =>
      dsimp only
      by_cases hs : entryKey e player ∈ seen
      · simp only [hs, if_true]; exact ih seen h
      · simp only [hs, if_false]
        rw [if_neg (by omega : ¬(1 : Int) ≤ size)]

/-- The unfiltered fallback loop computes exactly the claim-side "first
`size` valid entries anywhere, deduplicated" function, while budget
remains. -/
theorem selectLoop_nofilter_eq_take (t : Option Int) (size : Int)
    (pairs : List (Option Int × Json)) :
    ∀ (acc : List Json) (seen : List (Option Json)),
    1 ≤ size - (acc.length : Int) →
    (selectLoop t size false pairs acc seen).1 =
      acc ++ takeValidDedup (size - acc.length) (pairs.map Prod.snd) seen := by
  induction pairs with
  | nil => intro acc seen _; simp [selectLoop, takeValidDedup]
  | cons p rest ih =>
    obtain ⟨tm, e⟩ := p
    intro acc seen h
    simp only [selectLoop, List.map_cons, takeValidDedup]
    rw [if_neg (by simp : ¬(false && t.isSome && tm.isSome && tm != t) = true)]
    generalize hp : entryPlayer e = pl
    cases pl with
    | none => exact ih acc seen h
    | some player =>
      dsimp only
      by_cases hs : entryKey e player ∈ seen
      · simp only [hs, if_true]; exact ih acc seen h
      · simp only [hs, if_false]
        rw [if_pos (by omega : (1 : Int) ≤ size - (acc.length : Int))]
        by_cases hz : ((acc.length : Int) + 1 : Int) ≥ size
        · rw [if_pos hz]
          rw [takeValidDedup_nonpos (size - (acc.length : Int) - 1) (rest.map Prod.snd)
            (entryKey e player :: seen) (by omega)]
        · rw [if_neg hz]
          have harg : size - (((acc ++ [e]).length : Int)) = size - (acc.length : Int) - 1 := by
            simp only [List.length_append, List.length_singleton]
            push_cast
            ring
          have := ih (acc ++ [e]) (entryKey e player :: seen)
            (by rw [harg]; omega)
          rw [this, harg]
          simp

/-!
## Lemmas: the whole resolution phase
-/

/-- The resolved list is a subsequence of the scanned entries. -/
theorem resolveEntries_sublist (t : Option Int) (size : Int)
    (pairs : List (Option Int × Json)) :
    (resolveEntries t size pairs).Sublist (pairs.map Prod.snd) := by
  unfold resolveEntries
  by_cases hc : ((selectLoop t size true pairs [] []).1.isEmpty && t.isSome) = true
  · rw [if_pos hc]
    simpa using selectLoop_sublist t size false pairs []
      (selectLoop t size true pairs [] []).2
  · rw [if_neg hc]
    simpa using selectLoop_sublist t size true pairs [] []

/-- Size bound of the resolved list: at most `size` when `1 ≤ size`, at most
one entry otherwise. -/
theorem resolveEntries_length (t : Option Int) (size : Int)
    (pairs : List (Option Int × Json)) :
    ((1 : Int) ≤ size → ((resolveEntries t size pairs).length : Int) ≤ size) ∧
    (size ≤ 0 → (resolveEntries t size pairs).length ≤ 1) := by
  constructor
  · intro hsize
    unfold resolveEntries
    by_cases hc : ((selectLoop t size true pairs [] []).1.isEmpty && t.isSome) = true
    · rw [if_pos hc]
      simpa using selectLoop_length_lt t size false pairs []
        (selectLoop t size true pairs [] []).2 (by simpa using hsize)
    · rw [if_neg hc]
      simpa using selectLoop_length_lt t size true pairs [] [] (by simpa using hsize)
  · intro hsize
    unfold resolveEntries
    by_cases hc : ((selectLoop t size true pairs [] []).1.isEmpty && t.isSome) = true
    · rw [if_pos hc]
      simpa using selectLoop_length_ge t size false pairs []
        (selectLoop t size true pairs [] []).2 (by simpa using by omega)
    · rw [if_neg hc]
      simpa using selectLoop_length_ge t size true pairs [] [] (by simpa using by omega)

/-- No player key repeats in the resolved list. -/
theorem resolveEntries_nodup (t : Option Int) (size : Int)
    (pairs : List (Option Int × Json)) :
    ((resolveEntries t size pairs).map selKey).Nodup := by
  unfold resolveEntries
  by_cases hc : ((selectLoop t size true pairs [] []).1.isEmpty && t.isSome) = true
  · rw [if_pos hc]
    exact selectLoop_nodup t size false pairs [] (selectLoop t size true pairs [] []).2
      (by simp) (by simp)
  · rw [if_neg hc]
    exact selectLoop_nodup t size true pairs [] [] (by simp) (by simp)

/-- As soon as one pair carries the requested team and a valid player, the
fallback loop is not reached, so every resolved entry comes from a pair whose
team is unknown or matches. -/
theorem resolveEntries_mem_of_match (tid : Int) (size : Int)
    (pairs : List (Option Int × Json))
    (hmatch : ∃ w, (some tid, w) ∈ pairs ∧ entryPlayer w ≠ none) :
    ∀ e ∈ resolveEntries (some tid) size pairs,
    ∃ tm, (tm, e) ∈ pairs ∧ (tm = none ∨ tm = some tid) := by
  obtain ⟨w, hw, hwval⟩ := hmatch
  have hne : (selectLoop (some tid) size true pairs [] []).1 ≠ [] :=
    selectLoop_match_nonempty tid size pairs w hw hwval
  intro e he
  unfold resolveEntries at he
  rw [if_neg (by simp [List.isEmpty_iff, hne])] at he
  rcases selectLoop_mem_filter tid size pairs [] [] e he with habs | hok
  · simp at habs
  · exact hok

/-- When team filtering leaves nothing, the result is the claim-side
"first `size` valid entries anywhere" list (for a positive `size`). -/
theorem resolveEntries_fallback (tid : Int) (size : Int)
    (pairs : List (Option Int × Json)) (hsize : (1 : Int) ≤ size)
    (H : ∀ tm e, (tm, e) ∈ pairs → (tm = none ∨ tm = some tid) → entryPlayer e = none) :
    resolveEntries (some tid) size pairs = takeValidDedup size (pairs.map Prod.snd) [] := by
  have h1 : selectLoop (some tid) size true pairs [] [] = ([], []) :=
    selectLoop_all_incompatible tid size pairs [] [] H
  unfold resolveEntries
  rw [h1]
  rw [if_pos (by simp)]
  have := selectLoop_nofilter_eq_take (some tid) size pairs [] [] (by simpa using hsize)
  simpa using this

/-- Teams occurring in `legacyParse` output are always the requested one. -/
theorem legacyParse_teams (t : Option Int) (d : Json) :
    ∀ tm e, (tm, e) ∈ legacyParse t d → tm = t := by
  intro tm e hmem
  unfold legacyParse at hmem
  split at hmem
  · split at hmem
    · rcases List.mem_map.mp hmem with ⟨x, _, hx⟩
      exact congrArg Prod.fst hx.symm
    · split at hmem
      · split at hmem
        · rcases List.mem_map.mp hmem with ⟨x, _, hx⟩
          exact congrArg Prod.fst hx.symm
        · simp at hmem
      · simp at hmem
  · simp at hmem

/-- Teams occurring in `rawFallbackParse` output are always unknown. -/
theorem rawFallbackParse_teams (d : Json) :
    ∀ tm e, (tm, e) ∈ rawFallbackParse d → tm = none := by
  intro tm e hmem
  unfold rawFallbackParse at hmem
  split at hmem
  · rcases List.mem_map.mp hmem with ⟨x, _, hx⟩
    exact congrArg Prod.fst hx.symm
  · split at hmem
    · split at hmem
      · rcases List.mem_map.mp hmem with ⟨x, _, hx⟩
        exact congrArg Prod.fst hx.symm
      · simp at hmem
    · simp at hmem

/-- `team_watchlist` for a valid year, written out. -/
theorem team_watchlist_ok {year : Int} (h : ¬year < 2019) (p l : Json)
    (t : Option Int) (size : Int) :
    team_watchlist year p l t size =
      (Except.ok (resolveEntries t size (watchlistPairs t p l)),
        if usesLegacyFetch p then [FetchCall.primaryView, FetchCall.legacyView t size]
        else [FetchCall.primaryView]) := by
  simp [team_watchlist, h]

/-- Either the pairs reaching selection are exactly the tree walk's output,
or every pair's team is the requested one or unknown. -/
theorem watchlistPairs_cases (t : Option Int) (p l : Json) :
    watchlistPairs t p l = collectWatchlistEntries p ∨
    (∀ tm e, (tm, e) ∈ watchlistPairs t p l → tm = t ∨ tm = none) := by
  unfold watchlistPairs
  by_cases hleg : usesLegacyFetch p = true
  · right
    rw [if_pos hleg]
    intro tm e hmem
    dsimp only at hmem
    split at hmem
    · exact Or.inr (rawFallbackParse_teams l tm e hmem)
    · exact Or.inl (legacyParse_teams t l tm e hmem)
  · rw [if_neg hleg]
    by_cases hne : (primaryEntries p).isEmpty = true
    · right
      intro tm e hmem
      dsimp only at hmem
      split at hmem
      · exact Or.inr (rawFallbackParse_teams p tm e hmem)
      · rw [List.isEmpty_iff] at hne
        rw [hne] at hmem
        simp at hmem
    · left
      dsimp only
      rw [if_neg (by simp [hne])]
      have hg : (p.isObj && p.truthy) = true := by
        by_contra hgf
        apply hne
        unfold primaryEntries
        rw [if_neg hgf]
        rfl
      unfold primaryEntries
      rw [if_pos hg]

/-- The legacy fetch happens exactly when the payload is not a nonempty dict
or the walk found nothing, and the payload is not a dict with a
`playerWatchList` key. -/
theorem usesLegacyFetch_iff (p : Json) :
    usesLegacyFetch p = true ↔
      ((¬(p.isObj = true ∧ p.truthy = true) ∨ collectWatchlistEntries p = []) ∧
        ¬(p.isObj = true ∧ (p.get "playerWatchList").isSome = true)) := by
  unfold usesLegacyFetch primaryEntries
  by_cases hg : (p.isObj && p.truthy) = true
  · rw [if_pos hg]
    rw [Bool.and_eq_true] at hg
    simp [List.isEmpty_iff, hg]
  · rw [if_neg hg]
    rw [Bool.and_eq_true] at hg
    constructor
    · intro h
      refine ⟨Or.inl hg, ?_⟩
      rintro ⟨hobj, hsome⟩
      rw [hobj, hsome] at h
      simp at h
    · rintro ⟨_, hnot⟩
      cases hobj : p.isObj
      · simp [hobj]
      · cases hsome : (p.get "playerWatchList").isSome
        · simp [hobj, hsome]
        · exact absurd ⟨hobj, hsome⟩ hnot

/-!
## Concrete payloads

`testGuardEntry` through `legacyPlayersResp` are the payloads of the
repository's unit tests (statistics fields trimmed); the rest are the inputs
used by counterexamples below.
-/

def testGuardEntry : Json :=
  .obj [("player", .obj [("id", .int 101), ("fullName", .str "Test Guard")]),
    ("playerId", .int 101), ("lineupSlotId", .int 0), ("teamId", .int 7)]

def testForwardEntry : Json :=
  .obj [("player", .obj [("id", .int 202), ("fullName", .str "Other Player")]),
    ("playerId", .int 202), ("lineupSlotId", .int 0), ("teamId", .int 4)]

def testPrimaryPayload : Json :=
  .obj [("playerWatchList", .obj [("watchlists", .arr [
    .obj [("teamId", .int 7), ("entries", .arr [testGuardEntry])],
    .obj [("teamId", .int 4), ("entries", .arr [testForwardEntry])]])])]

def legacyPlayerEntry : Json :=
  .obj [("player", .obj [("id", .int 303), ("fullName", .str "Legacy Player")]),
    ("playerId", .int 303), ("lineupSlotId", .int 0)]

def legacyPlayersResp : Json := .obj [("players", .arr [legacyPlayerEntry])]

def unknownTeamEntry : Json := .obj [("player", .obj [("id", .int 32)])]

def team7Entry : Json := .obj [("teamId", .int 7), ("player", .obj [("id", .int 31)])]

def mixedTeamsPayload : Json := .obj [("watch", .arr [unknownTeamEntry, team7Entry])]

def listRootPayload : Json :=
  .arr [.obj [("watchme", .obj [("player", .obj [("id", .int 5)])])]]

def zeroIdEntryA : Json := .obj [("playerId", .int 0), ("player", .obj [("id", .int 1)])]

def zeroIdEntryB : Json := .obj [("playerId", .int 0), ("player", .obj [("id", .int 2)])]

def zeroIdPayload : Json := .obj [("watch", .arr [zeroIdEntryB, zeroIdEntryA])]

def team9Entry : Json := .obj [("teamId", .int 9), ("player", .obj [("id", .int 3)])]

def team9Payload : Json := .obj [("watch", .arr [team9Entry])]

def firstDocEntry : Json := .obj [("player", .obj [("id", .int 11)])]

def secondDocEntry : Json := .obj [("player", .obj [("id", .int 12)])]

def orderedPayload : Json := .obj [("watch", .arr [firstDocEntry, secondDocEntry])]

def plainPlayersEntry : Json := .obj [("player", .obj [("id", .int 21)])]

def plainPlayersPayload : Json := .obj [("players", .arr [plainPlayersEntry])]

def futureSeasonEntry : Json :=
  .obj [("player", .obj [("id", .int 555), ("fullName", .str "Future Guard")]),
    ("playerId", .int 555)]

/-- The fetch behaviour of `test_watchlist_players_attempts_future_season`:
season 2024 is empty, season 2025 holds one entry. -/
def futureSeasonFetch : Int → Int → Int → List Json := fun s limit offset =>
  if s = 2025 ∧ limit = 5 ∧ offset = 15 then [futureSeasonEntry] else []

/-! Evaluations of `keyHasWatch` on the concrete keys appearing below. -/

theorem kwWatch : keyHasWatch "watch" = true := by decide

theorem kwWatchme : keyHasWatch "watchme" = true := by decide

theorem kwPlayerWatchList : keyHasWatch "playerWatchList" = true := by decide

theorem kwWatchlists : keyHasWatch "watchlists" = true := by decide

theorem kwEntries : keyHasWatch "entries" = false := by decide

theorem kwPlayer : keyHasWatch "player" = false := by decide

theorem kwPlayers : keyHasWatch "players" = false := by decide

/-!
## The claims
-/

/-- C1: the walk collects exactly the outermost mapping nodes that lie below
a key containing "watch" (case-insensitively) and carry a dict-valued
`player` field, each paired with the nearest enclosing integer `teamId` (or
no team), and it does not descend into a captured node — `specCollect` is
that characterization read off the claim, and the stack walk produces the
same multiset of (team, entry) pairs. -/
theorem claim1_walk_characterization (j : Json) :
    (collectWatchlistEntries j).Perm (specCollect j false none) := by
  unfold collectWatchlistEntries
  rw [collectLoop_single j false none]
  exact revDfs_perm j false none

/-- C7 (amended): the traversal is deterministic but visits siblings in
*reverse* insertion order — the stack walk equals the reverse-sibling-order
depth-first capture — and the resolved list preserves the relative order of
the capture sequence (it is a subsequence of it). -/
theorem claim7_traversal_order :
    (∀ j : Json, collectWatchlistEntries j = revDfs j false none) ∧
    (∀ (t : Option Int) (size : Int) (pairs : List (Option Int × Json)),
      (resolveEntries t size pairs).Sublist (pairs.map Prod.snd)) := by
  constructor
  · intro j
    unfold collectWatchlistEntries
    exact collectLoop_single j false none
  · exact resolveEntries_sublist

/-- C7 counterexample: for `{"watch": [firstDocEntry, secondDocEntry]}` the
resolved list is `[secondDocEntry, firstDocEntry]` — the reverse of the
document order the claim asserts. -/
theorem claim7_counterexample :
    (team_watchlist 2024 orderedPayload Json.null (some 5) 25).1 =
      Except.ok [secondDocEntry, firstDocEntry] ∧
    secondDocEntry ≠ firstDocEntry := by
  refine ⟨?_, by decide⟩
  simp only [team_watchlist, usesLegacyFetch, primaryEntries, watchlistPairs, resolveEntries,
    collectWatchlistEntries]
  simp [collectLoop, dictChildren, listChildren, teamValue, hasPlayerDict, kwWatch, kwWatchme, kwPlayerWatchList, kwWatchlists, kwEntries, kwPlayer, kwPlayers,
    Json.get, lookupField, Json.isContainer, Json.asInt, selectLoop, entryPlayer, entryKey,
    pyOr, Json.truthy, Json.isObj, legacyParse, rawFallbackParse, orderedPayload,
    firstDocEntry, secondDocEntry]

/-- C10: for a league year before 2019 `team_watchlist` raises before issuing
any fetch, whatever the team and size. -/
theorem claim10_year_guard (year : Int) (p l : Json) (t : Option Int) (size : Int)
    (h : year < 2019) :
    team_watchlist year p l t size =
      (Except.error "Cant use watchlist before 2019", []) := by
  simp [team_watchlist, h]

theorem claim10_witness :
    team_watchlist 2018 (Json.obj []) Json.null (some 3) 10 =
      (Except.error "Cant use watchlist before 2019", []) :=
  claim10_year_guard 2018 (Json.obj []) Json.null (some 3) 10 (by decide)

/-- C9: season probing — the paged fetch is invoked on the candidate seasons
strictly in order, stops at the first non-empty page and returns exactly that
page, returns empty when all pages are empty; with the 2024/2025 stub it
calls both seasons in order and returns the 2025 entry. -/
theorem claim9_season_probing :
    (∀ (fp : Int → Int → Int → List Json) (limit offset : Int) (seasons : List Int),
      (∀ s ∈ seasons, fp s limit offset = []) →
      collect_across_seasons fp limit offset seasons =
        ([], seasons.map (fun s => (s, limit, offset)))) ∧
    (∀ (fp : Int → Int → Int → List Json) (limit offset : Int)
      (pre : List Int) (s : Int) (post : List Int),
      (∀ x ∈ pre, fp x limit offset = []) → fp s limit offset ≠ [] →
      collect_across_seasons fp limit offset (pre ++ s :: post) =
        (fp s limit offset, (pre ++ [s]).map (fun x => (x, limit, offset)))) ∧
    watchlist_players futureSeasonFetch 2024 5 15 none =
      ([futureSeasonEntry], [(2024, 5, 15), (2025, 5, 15)]) := by
  refine ⟨?_, ?_, ?_⟩
  · intro fp limit offset seasons hall
    induction seasons with
    | nil => simp [collect_across_seasons]
    | cons s rest ih =>
      have hs := hall s (List.mem_cons_self _ _)
      simp only [collect_across_seasons, hs, List.isEmpty_nil, if_true, List.map_cons]
      rw [ih (fun x hx => hall x (List.mem_cons_of_mem _ hx))]
  · intro fp limit offset pre s post hpre hs
    induction pre with
    | nil =>
      simp only [List.nil_append, collect_across_seasons, List.map_cons, List.map_nil]
      rw [if_neg (by simpa [List.isEmpty_iff] using hs)]
    | cons x rest ih =>
      have hx := hpre x (List.mem_cons_self _ _)
      simp only [List.cons_append, collect_across_seasons, hx, List.isEmpty_nil, if_true,
        List.map_cons, List.append_eq]
      rw [ih (fun y hy => hpre y (List.mem_cons_of_mem _ hy))]
  · decide

theorem claim9_witness :
    collect_across_seasons futureSeasonFetch 5 15 ([2024] ++ 2025 :: []) =
      (futureSeasonFetch 2025 5 15, ([2024] ++ [2025]).map (fun x => (x, 5, 15))) :=
  claim9_season_probing.2.1 futureSeasonFetch 5 15 [2024] 2025 [] (by decide) (by decide)

/-- C8: the failing input of the claim — the walk finds nothing, the primary
payload has no `playerWatchList` key but does carry a valid top-level
`players` list, and the legacy response has no recognizable shape.  The code
then reads the (rebound) legacy response, not the primary payload, and
returns the empty list. -/
theorem claim8_raw_players_fallback :
    team_watchlist 2024 plainPlayersPayload (Json.obj []) (some 9) 10 =
      (Except.ok [], [FetchCall.primaryView, FetchCall.legacyView (some 9) 10]) ∧
    plainPlayersPayload.get "players" = some (Json.arr [plainPlayersEntry]) ∧
    entryPlayer plainPlayersEntry ≠ none := by
  refine ⟨?_, by decide, by decide⟩
  simp only [team_watchlist, usesLegacyFetch, primaryEntries, watchlistPairs, resolveEntries,
    collectWatchlistEntries]
  simp [collectLoop, dictChildren, listChildren, teamValue, hasPlayerDict, kwWatch, kwWatchme, kwPlayerWatchList, kwWatchlists, kwEntries, kwPlayer, kwPlayers,
    Json.get, lookupField, Json.isContainer, Json.asInt, selectLoop, entryPlayer, entryKey,
    pyOr, Json.truthy, Json.isObj, legacyParse, rawFallbackParse, plainPlayersPayload,
    plainPlayersEntry]

/-- C2 (amended): if the walk collected an entry attributed to the requested
team that carries a dict-valued player, every resolved entry comes from a
pair attributed to that team or to *no* team — entries attributed to a
different known team are excluded, but unknown-attribution entries may be
kept. -/
theorem claim2_team_filter (year : Int) (p l : Json) (tid : Int) (size : Int)
    (es : List Json) (cs : List FetchCall) (hyear : ¬year < 2019)
    (hmatch : ∃ w, (some tid, w) ∈ collectWatchlistEntries p ∧ entryPlayer w ≠ none)
    (heq : team_watchlist year p l (some tid) size = (Except.ok es, cs)) :
    ∀ e ∈ es, ∃ tm, (tm, e) ∈ watchlistPairs (some tid) p l ∧
      (tm = none ∨ tm = some tid) := by
  rw [team_watchlist_ok hyear] at heq
  have hes : resolveEntries (some tid) size (watchlistPairs (some tid) p l) = es :=
    Except.ok.inj (congrArg Prod.fst heq)
  intro e he
  rw [← hes] at he
  rcases watchlistPairs_cases (some tid) p l with hc | hc
  · exact resolveEntries_mem_of_match tid size _ (by rw [hc]; exact hmatch) e he
  · have hmem := (resolveEntries_sublist (some tid) size _).subset he
    rcases List.mem_map.mp hmem with ⟨⟨tm, e'⟩, hpair, hpe⟩
    dsimp at hpe
    subst hpe
    rcases hc tm e' hpair with h1 | h1
    · exact ⟨tm, hpair, Or.inr h1⟩
    · exact ⟨tm, hpair, Or.inl h1⟩

/-- C2 counterexample: with a team-7 entry present and valid, resolving for
team 7 also keeps the unknown-attribution entry, which the claim as stated
says is excluded. -/
theorem claim2_counterexample :
    (team_watchlist 2024 mixedTeamsPayload Json.null (some 7) 25).1 =
      Except.ok [team7Entry, unknownTeamEntry] ∧
    (some 7, team7Entry) ∈ collectWatchlistEntries mixedTeamsPayload ∧
    (none, unknownTeamEntry) ∈ collectWatchlistEntries mixedTeamsPayload ∧
    (some 7, unknownTeamEntry) ∉ collectWatchlistEntries mixedTeamsPayload := by
  have hcol : collectWatchlistEntries mixedTeamsPayload =
      [(some 7, team7Entry), (none, unknownTeamEntry)] := by
    simp only [collectWatchlistEntries]
    simp [collectLoop, dictChildren, listChildren, teamValue, hasPlayerDict, kwWatch, kwWatchme, kwPlayerWatchList, kwWatchlists, kwEntries, kwPlayer, kwPlayers,
      Json.get, lookupField, Json.isContainer, Json.asInt, mixedTeamsPayload,
      unknownTeamEntry, team7Entry]
  refine ⟨?_, by rw [hcol]; decide, by rw [hcol]; decide, by rw [hcol]; decide⟩
  simp only [team_watchlist, usesLegacyFetch, primaryEntries, watchlistPairs, resolveEntries,
    collectWatchlistEntries]
  simp [collectLoop, dictChildren, listChildren, teamValue, hasPlayerDict, kwWatch, kwWatchme, kwPlayerWatchList, kwWatchlists, kwEntries, kwPlayer, kwPlayers,
    Json.get, lookupField, Json.isContainer, Json.asInt, selectLoop, entryPlayer, entryKey,
    pyOr, Json.truthy, Json.isObj, legacyParse, rawFallbackParse, mixedTeamsPayload,
    unknownTeamEntry, team7Entry]

theorem claim2_witness :
    ∃ tm, (tm, testGuardEntry) ∈ watchlistPairs (some 7) testPrimaryPayload Json.null ∧
      (tm = none ∨ tm = some 7) :=
  claim2_team_filter 2024 testPrimaryPayload Json.null 7 25 [testGuardEntry]
    [FetchCall.primaryView] (by decide)
    ⟨testGuardEntry, by
      have hcol : collectWatchlistEntries testPrimaryPayload =
          [(some 4, testForwardEntry), (some 7, testGuardEntry)] := by
        simp only [collectWatchlistEntries]
        simp [collectLoop, dictChildren, listChildren, teamValue, hasPlayerDict, kwWatch, kwWatchme, kwPlayerWatchList, kwWatchlists, kwEntries, kwPlayer, kwPlayers,
          Json.get, lookupField, Json.isContainer, Json.asInt, testPrimaryPayload,
          testGuardEntry, testForwardEntry]
      rw [hcol]
      decide, by decide⟩
    (by
      simp only [team_watchlist, usesLegacyFetch, primaryEntries, watchlistPairs,
        resolveEntries, collectWatchlistEntries]
      simp [collectLoop, dictChildren, listChildren, teamValue, hasPlayerDict, kwWatch, kwWatchme, kwPlayerWatchList, kwWatchlists, kwEntries, kwPlayer, kwPlayers,
        Json.get, lookupField, Json.isContainer, Json.asInt, selectLoop, entryPlayer,
        entryKey, pyOr, Json.truthy, Json.isObj, legacyParse, rawFallbackParse,
        testPrimaryPayload, testGuardEntry, testForwardEntry])
    testGuardEntry (List.mem_cons_self _ _)

/-- C3 (amended): the returned list has length at most `size` when
`1 ≤ size`, and at most one entry when `size ≤ 0` — the bound check runs
*after* an append, so a nonpositive size still lets one entry through. -/
theorem claim3_size_bound (year : Int) (p l : Json) (t : Option Int) (size : Int)
    (es : List Json) (cs : List FetchCall) (hyear : ¬year < 2019)
    (heq : team_watchlist year p l t size = (Except.ok es, cs)) :
    ((1 : Int) ≤ size → (es.length : Int) ≤ size) ∧ (size ≤ 0 → es.length ≤ 1) := by
  rw [team_watchlist_ok hyear] at heq
  have hes := Except.ok.inj (congrArg Prod.fst heq)
  rw [← hes]
  exact resolveEntries_length t size (watchlistPairs t p l)

/-- C3 counterexample: at `size = 0` the resolver still returns one entry,
so neither "length ≤ n for n ≥ 0" nor "empty for n ≤ 0" holds. -/
theorem claim3_counterexample :
    (team_watchlist 2024 testPrimaryPayload Json.null (some 7) 0).1 =
      Except.ok [testGuardEntry] ∧
    ¬(([testGuardEntry] : List Json).length ≤ 0) := by
  refine ⟨?_, by decide⟩
  simp only [team_watchlist, usesLegacyFetch, primaryEntries, watchlistPairs, resolveEntries,
    collectWatchlistEntries]
  simp [collectLoop, dictChildren, listChildren, teamValue, hasPlayerDict, kwWatch, kwWatchme, kwPlayerWatchList, kwWatchlists, kwEntries, kwPlayer, kwPlayers,
    Json.get, lookupField, Json.isContainer, Json.asInt, selectLoop, entryPlayer, entryKey,
    pyOr, Json.truthy, Json.isObj, legacyParse, rawFallbackParse, testPrimaryPayload,
    testGuardEntry, testForwardEntry]

theorem claim3_witness :
    (([testGuardEntry] : List Json).length : Int) ≤ 25 :=
  (claim3_size_bound 2024 testPrimaryPayload Json.null (some 7) 25 [testGuardEntry]
    [FetchCall.primaryView] (by decide)
    (by
      simp only [team_watchlist, usesLegacyFetch, primaryEntries, watchlistPairs,
        resolveEntries, collectWatchlistEntries]
      simp [collectLoop, dictChildren, listChildren, teamValue, hasPlayerDict, kwWatch, kwWatchme, kwPlayerWatchList, kwWatchlists, kwEntries, kwPlayer, kwPlayers,
        Json.get, lookupField, Json.isContainer, Json.asInt, selectLoop, entryPlayer,
        entryKey, pyOr, Json.truthy, Json.isObj, legacyParse, rawFallbackParse,
        testPrimaryPayload, testGuardEntry, testForwardEntry])).1 (by decide)

/-- C4 (amended): the legacy fetch happens iff the payload is not a nonempty
dict or the walk collected nothing, and the payload is not a dict holding a
`playerWatchList` key; the `{}` primary / flat-`players` legacy pair issues
exactly two fetches (primary first) and returns the legacy entries. -/
theorem claim4_legacy_condition :
    (∀ (year : Int) (p l : Json) (t : Option Int) (size : Int), ¬year < 2019 →
      ((team_watchlist year p l t size).2 =
          [FetchCall.primaryView, FetchCall.legacyView t size] ↔
        ((¬(p.isObj = true ∧ p.truthy = true) ∨ collectWatchlistEntries p = []) ∧
          ¬(p.isObj = true ∧ (p.get "playerWatchList").isSome = true)))) ∧
    team_watchlist 2024 (Json.obj []) legacyPlayersResp (some 9) 10 =
      (Except.ok [legacyPlayerEntry],
        [FetchCall.primaryView, FetchCall.legacyView (some 9) 10]) := by
  constructor
  · intro year p l t size hyear
    rw [team_watchlist_ok hyear]
    dsimp only
    rw [← usesLegacyFetch_iff]
    by_cases hu : usesLegacyFetch p = true
    · simp [hu]
    · simp [hu]
  · simp only [team_watchlist, usesLegacyFetch, primaryEntries, watchlistPairs,
      resolveEntries, collectWatchlistEntries]
    simp [collectLoop, dictChildren, listChildren, teamValue, hasPlayerDict, kwWatch, kwWatchme, kwPlayerWatchList, kwWatchlists, kwEntries, kwPlayer, kwPlayers,
      Json.get, lookupField, Json.isContainer, Json.asInt, selectLoop, entryPlayer,
      entryKey, pyOr, Json.truthy, Json.isObj, legacyParse, rawFallbackParse,
      legacyPlayersResp, legacyPlayerEntry]

/-- C4 counterexample: a list-shaped payload whose walk *would* capture an
entry still triggers the legacy fetch, because the code only runs the walk on
nonempty dicts — against the claim's iff. -/
theorem claim4_counterexample :
    (team_watchlist 2024 listRootPayload (Json.obj []) (some 1) 10).2 =
      [FetchCall.primaryView, FetchCall.legacyView (some 1) 10] ∧
    collectWatchlistEntries listRootPayload ≠ [] := by
  constructor
  · simp [team_watchlist, usesLegacyFetch, primaryEntries, listRootPayload, Json.isObj]
  · have hcol : collectWatchlistEntries listRootPayload =
        [(none, Json.obj [("player", Json.obj [("id", Json.int 5)])])] := by
      simp only [collectWatchlistEntries]
      simp [collectLoop, dictChildren, listChildren, teamValue, hasPlayerDict, kwWatch, kwWatchme, kwPlayerWatchList, kwWatchlists, kwEntries, kwPlayer, kwPlayers,
        Json.get, lookupField, Json.isContainer, Json.asInt, listRootPayload]
    rw [hcol]
    decide

theorem claim4_witness :
    (team_watchlist 2024 (Json.obj []) legacyPlayersResp (some 9) 10).2 =
      [FetchCall.primaryView, FetchCall.legacyView (some 9) 10] :=
  (claim4_legacy_condition.1 2024 (Json.obj []) legacyPlayersResp (some 9) 10
    (by decide)).mpr ⟨Or.inl (by decide), by decide⟩

/-- C5 (amended): the identifier the code deduplicates by — the `playerId`
field when present *and truthy*, else the nested player's `id` — appears at
most once among the returned entries. -/
theorem claim5_dedup (year : Int) (p l : Json) (t : Option Int) (size : Int)
    (es : List Json) (cs : List FetchCall) (hyear : ¬year < 2019)
    (heq : team_watchlist year p l t size = (Except.ok es, cs)) :
    (es.map selKey).Nodup := by
  rw [team_watchlist_ok hyear] at heq
  have hes := Except.ok.inj (congrArg Prod.fst heq)
  rw [← hes]
  exact resolveEntries_nodup t size (watchlistPairs t p l)

/-- C5 counterexample: two entries with the literal field `playerId = 0`
(present, but falsy, so Python's `or` ignores it) are both returned, and the
claim's identifier — `playerId` when present — appears twice. -/
theorem claim5_counterexample :
    (team_watchlist 2024 zeroIdPayload Json.null none 10).1 =
      Except.ok [zeroIdEntryA, zeroIdEntryB] ∧
    claimKey zeroIdEntryA = some (Json.int 0) ∧
    claimKey zeroIdEntryB = some (Json.int 0) ∧
    zeroIdEntryA ≠ zeroIdEntryB := by
  refine ⟨?_, by decide, by decide, by decide⟩
  simp only [team_watchlist, usesLegacyFetch, primaryEntries, watchlistPairs, resolveEntries,
    collectWatchlistEntries]
  simp [collectLoop, dictChildren, listChildren, teamValue, hasPlayerDict, kwWatch, kwWatchme, kwPlayerWatchList, kwWatchlists, kwEntries, kwPlayer, kwPlayers,
    Json.get, lookupField, Json.isContainer, Json.asInt, selectLoop, entryPlayer, entryKey,
    pyOr, Json.truthy, Json.isObj, legacyParse, rawFallbackParse, zeroIdPayload,
    zeroIdEntryA, zeroIdEntryB]

theorem claim5_witness :
    (([zeroIdEntryA, zeroIdEntryB] : List Json).map selKey).Nodup :=
  claim5_dedup 2024 zeroIdPayload Json.null none 10 [zeroIdEntryA, zeroIdEntryB]
    [FetchCall.primaryView] (by decide)
    (by
      simp only [team_watchlist, usesLegacyFetch, primaryEntries, watchlistPairs,
        resolveEntries, collectWatchlistEntries]
      simp [collectLoop, dictChildren, listChildren, teamValue, hasPlayerDict, kwWatch, kwWatchme, kwPlayerWatchList, kwWatchlists, kwEntries, kwPlayer, kwPlayers,
        Json.get, lookupField, Json.isContainer, Json.asInt, selectLoop, entryPlayer,
        entryKey, pyOr, Json.truthy, Json.isObj, legacyParse, rawFallbackParse,
        zeroIdPayload, zeroIdEntryA, zeroIdEntryB])

/-- C6 (amended): when team filtering leaves zero selected entries and
`1 ≤ size`, the result is the first `size` valid entries found anywhere in
the pair list regardless of team, deduplicated by player identifier (for
`size ≤ 0` a single entry may still be returned, see C3); and different-team
entries stay excluded whenever a same-team valid entry exists. -/
theorem claim6_fallback (year : Int) (p l : Json) (tid : Int) (size : Int)
    (es : List Json) (cs : List FetchCall) (hyear : ¬year < 2019)
    (hsize : (1 : Int) ≤ size)
    (heq : team_watchlist year p l (some tid) size = (Except.ok es, cs)) :
    ((∀ tm e, (tm, e) ∈ watchlistPairs (some tid) p l →
        (tm = none ∨ tm = some tid) → entryPlayer e = none) →
      es = takeValidDedup size ((watchlistPairs (some tid) p l).map Prod.snd) []) ∧
    ((∃ w, (some tid, w) ∈ watchlistPairs (some tid) p l ∧ entryPlayer w ≠ none) →
      ∀ e ∈ es, ∃ tm, (tm, e) ∈ watchlistPairs (some tid) p l ∧
        (tm = none ∨ tm = some tid)) := by
  rw [team_watchlist_ok hyear] at heq
  have hes := Except.ok.inj (congrArg Prod.fst heq)
  constructor
  · intro H
    rw [← hes]
    exact resolveEntries_fallback tid size _ hsize H
  · intro hmatch e he
    rw [← hes] at he
    exact resolveEntries_mem_of_match tid size _ hmatch e he

/-- C6 counterexample: with `size = 0` and no team-5 entry anywhere, the
fallback still returns one entry instead of the claimed "first 0 entries"
(the empty list). -/
theorem claim6_counterexample :
    (team_watchlist 2024 team9Payload Json.null (some 5) 0).1 =
      Except.ok [team9Entry] ∧
    ([team9Entry] : List Json) ≠ [] := by
  refine ⟨?_, by decide⟩
  simp only [team_watchlist, usesLegacyFetch, primaryEntries, watchlistPairs, resolveEntries,
    collectWatchlistEntries]
  simp [collectLoop, dictChildren, listChildren, teamValue, hasPlayerDict, kwWatch, kwWatchme, kwPlayerWatchList, kwWatchlists, kwEntries, kwPlayer, kwPlayers,
    Json.get, lookupField, Json.isContainer, Json.asInt, selectLoop, entryPlayer, entryKey,
    pyOr, Json.truthy, Json.isObj, legacyParse, rawFallbackParse, team9Payload, team9Entry]

theorem claim6_witness :
    ([team9Entry] : List Json) =
      takeValidDedup 10 ((watchlistPairs (some 5) team9Payload Json.null).map Prod.snd) [] :=
  (claim6_fallback 2024 team9Payload Json.null 5 10 [team9Entry] [FetchCall.primaryView]
    (by decide) (by decide)
    (by
      simp only [team_watchlist, usesLegacyFetch, primaryEntries, watchlistPairs,
        resolveEntries, collectWatchlistEntries]
      simp [collectLoop, dictChildren, listChildren, teamValue, hasPlayerDict, kwWatch, kwWatchme, kwPlayerWatchList, kwWatchlists, kwEntries, kwPlayer, kwPlayers,
        Json.get, lookupField, Json.isContainer, Json.asInt, selectLoop, entryPlayer,
        entryKey, pyOr, Json.truthy, Json.isObj, legacyParse, rawFallbackParse,
        team9Payload, team9Entry])).1
    (by
      have hpairs : watchlistPairs (some 5) team9Payload Json.null =
          [(some 9, team9Entry)] := by
        simp only [watchlistPairs, usesLegacyFetch, primaryEntries, collectWatchlistEntries]
        simp [collectLoop, dictChildren, listChildren, teamValue, hasPlayerDict, kwWatch, kwWatchme, kwPlayerWatchList, kwWatchlists, kwEntries, kwPlayer, kwPlayers,
          Json.get, lookupField, Json.isContainer, Json.asInt, Json.truthy, Json.isObj,
          legacyParse, rawFallbackParse, team9Payload, team9Entry]
      intro tm e hm hc
      rw [hpairs] at hm
      simp only [List.mem_singleton, Prod.mk.injEq] at hm
      obtain ⟨h1, h2⟩ := hm
      subst h1
      rcases hc with h | h <;> simp at h)

end EspnWatchlist
